import Mathlib

/-!
Verification of the Korean syllable codec and morphology engine in
`src/experiments/01-translation/main.py`.

The embedding mirrors the Python source: strings are lists of characters,
Python integers are `Int` (Lean's `/` and `%` on `Int` agree with Python's
floor division and nonnegative remainder for positive divisors), Python list
indexing (which admits negative indices) is `pyIdx`, `str.index` is `idxOf?`,
and every operation that can raise returns `Except`.  In-place mutating
operations that can raise after mutating return the partially mutated state
inside the error, so that atomicity claims are expressible.
-/

set_option maxRecDepth 4000

namespace StudyKorean

/-- Error kinds, one per raise site of the Python source.  `indexError` is a
Python `IndexError` from list/string indexing, `rangeError` the `ValueError`
raised by `str.index` inside `Syllable._compose`, `invalidSuffix` the
`ValueError` of `WordForm.append` with `merge_syllables=True`,
`finalAlreadySet` the `ValueError` of `Syllable.append`, `malformedLemma` the
`ValueError` of `Verb.__init__`/`Adjective.__init__`, and `nameError` the
`NameError` on the undefined loop variable `i` in
`PastTense._build_base_inflection`. -/
inductive Err where
  | indexError
  | rangeError
  | invalidSuffix
  | finalAlreadySet
  | malformedLemma
  | nameError
deriving DecidableEq

/-- `Syllable.INITIAL_JAMOS` of the source: the 19 initial consonants. -/
def INITIAL_JAMOS : List Char :=
  ['ㄱ','ㄲ','ㄴ','ㄷ','ㄸ','ㄹ','ㅁ','ㅂ','ㅃ','ㅅ','ㅆ','ㅇ','ㅈ','ㅉ','ㅊ','ㅋ','ㅌ','ㅍ','ㅎ']

/-- `Syllable.MEDIAL_JAMOS` of the source: the 21 medial vowels. -/
def MEDIAL_JAMOS : List Char :=
  ['ㅏ','ㅐ','ㅑ','ㅒ','ㅓ','ㅔ','ㅕ','ㅖ','ㅗ','ㅘ','ㅙ','ㅚ','ㅛ','ㅜ','ㅝ','ㅞ','ㅟ','ㅠ','ㅡ','ㅢ','ㅣ']

/-- `Syllable.FINAL_JAMOS` of the source: a space sentinel followed by the 27
final consonants. -/
def FINAL_JAMOS : List Char :=
  [' ','ㄱ','ㄲ','ㄳ','ㄴ','ㄵ','ㄶ','ㄷ','ㄹ','ㄺ','ㄻ','ㄼ','ㄽ','ㄾ','ㄿ','ㅀ','ㅁ','ㅂ','ㅄ','ㅅ','ㅆ','ㅇ','ㅈ','ㅊ','ㅋ','ㅌ','ㅍ','ㅎ']

/-- `Syllable.JAMO_NONE`: the sentinel for "no final consonant".  The
constants `UNICODE_HANGUL_SYLLABLE_OFFSET = 44032`,
`UNICODE_INITIAL_JAMO_FACTOR = 588` and `UNICODE_MEDIAL_JAMO_FACTOR = 28` of
the source appear below as numeric literals. -/
def JAMO_NONE : Char := ' '

/-- Python list indexing `l[i]`: negative indices count from the end; an
index out of range (in either direction) raises `IndexError`, i.e. `none`. -/
def pyIdx (l : List Char) (i : Int) : Option Char :=
  if 0 ≤ i then l.get? i.toNat
  else if (-i).toNat ≤ l.length then l.get? (l.length - (-i).toNat) else none

/-- Python `str.index`: position of the first occurrence, `none` when the
character does not occur (Python raises `ValueError`). -/
def idxOf? : List Char → Char → Option Nat
  | [], _ => none
  | x :: xs, c => if x = c then some 0 else (idxOf? xs c).map (· + 1)

/-- The `Syllable` object: the composed character together with its three
jamo attributes. -/
structure Syllable where
  syllable : Char
  jamo_initial : Char
  jamo_medial : Char
  jamo_final : Char
deriving DecidableEq

/-- `Syllable._compose`: recompute the composed character from the current
jamo attributes via `str.index` into the three catalogs; any jamo outside its
catalog raises (`rangeError`). -/
def Syllable.composeNow (s : Syllable) : Except Err Syllable :=
  match idxOf? INITIAL_JAMOS s.jamo_initial, idxOf? MEDIAL_JAMOS s.jamo_medial,
      idxOf? FINAL_JAMOS s.jamo_final with
  | some ni, some nm, some nf =>
      .ok { s with syllable := Char.ofNat (44032 + ni * 588 + nm * 28 + nf) }
  | _, _, _ => .error .rangeError

/-- `Syllable.from_jamos` (encode): build a syllable from three jamos.  The
placeholder composed character is overwritten by `_compose` on success and is
unobservable on failure (Python raises out of the constructor). -/
def Syllable.from_jamos (i m f : Char) : Except Err Syllable :=
  Syllable.composeNow ⟨JAMO_NONE, i, m, f⟩

/-- `Syllable.from_syllable` (decode to jamos, `Syllable._decompose`): the
source performs the divisions on `ord(ch) - 44032` with no range check, then
indexes the catalogs with possibly negative indices. -/
def Syllable.from_syllable (ch : Char) : Except Err Syllable :=
  let num : Int := (ch.toNat : Int) - 44032
  let nInitial : Int := num / 588
  let nMedial : Int := (num % 588) / 28
  let nFinal : Int := (num % 588) % 28
  match pyIdx INITIAL_JAMOS nInitial, pyIdx MEDIAL_JAMOS nMedial, pyIdx FINAL_JAMOS nFinal with
  | some i, some m, some f => .ok ⟨ch, i, m, f⟩
  | _, _, _ => .error .indexError

/-- `Syllable.append`: set the final jamo and recompose.  The guard raises
before mutating; a `_compose` failure raises after `jamo_final` was already
assigned, so the error carries the mutated syllable. -/
def Syllable.append (s : Syllable) (jamo_fin : Char) : Except (Err × Syllable) Syllable :=
  if s.jamo_final ≠ JAMO_NONE then .error (.finalAlreadySet, s)
  else
    let s1 : Syllable := { s with jamo_final := jamo_fin }
    match s1.composeNow with
    | .ok s2 => .ok s2
    | .error e => .error (e, s1)

/-- `Syllable.endswith`: compare against the final jamo when present,
otherwise against the medial jamo. -/
def Syllable.endswith (s : Syllable) (jamo : Char) : Bool :=
  if s.jamo_final ≠ ' ' then s.jamo_final == jamo else s.jamo_medial == jamo

/-- Decode every character of a string independently
(the list comprehension `[Syllable.from_syllable(c) for c in string]`). -/
def decodeAll : List Char → Except Err (List Syllable)
  | [] => .ok []
  | c :: cs =>
    match Syllable.from_syllable c with
    | .error e => .error e
    | .ok y =>
      match decodeAll cs with
      | .error e => .error e
      | .ok ys => .ok (y :: ys)

/-- The jamos contributed by one syllable in
`WordForm._build_jamo_sequence`: initial and medial, plus the final when it
is not the sentinel. -/
def jamoChunk (y : Syllable) : List Char :=
  y.jamo_initial :: y.jamo_medial ::
    (if y.jamo_final ≠ JAMO_NONE then [y.jamo_final] else [])

/-- `WordForm._build_jamo_sequence`: concatenation of the per-syllable
chunks. -/
def buildJamos : List Syllable → List Char
  | [] => []
  | y :: ys => jamoChunk y ++ buildJamos ys

/-- `WordForm._syllabes_to_word`: concatenation of the composed characters. -/
def stringOf (syls : List Syllable) : List Char := syls.map (·.syllable)

/-- The `WordForm` object: surface string, derived flat jamo string, and the
owned syllable sequence. -/
structure WordForm where
  string : List Char
  jamos : List Char
  syllables : List Syllable
deriving DecidableEq

/-- `WordForm.__init__`: decode each character of the surface string and
derive the jamo sequence; a decode failure raises out of the constructor. -/
def WordForm.mk? (s : List Char) : Except Err WordForm :=
  match decodeAll s with
  | .error e => .error e
  | .ok syls => .ok ⟨s, buildJamos syls, syls⟩

/-- `WordForm.copy`: rebuild from the surface string. -/
def WordForm.copy (wf : WordForm) : Except Err WordForm := WordForm.mk? wf.string

/-- `WordForm.append`.  With `merge_syllables=True` the first suffix
character must occur in `INITIAL_JAMOS`, is attached as the final of the last
syllable, and the remaining characters are decoded and appended; otherwise
the whole suffix is decoded and appended.  The derived `string` and `jamos`
are rebuilt only after all mutations succeed, so errors raised after the
last-syllable mutation carry a partially mutated form. -/
def WordForm.append (wf : WordForm) (suffix : List Char) (merge : Bool) :
    Except (Err × WordForm) WordForm :=
  match merge, suffix with
  | true, [] => .error (.indexError, wf)
  | true, c :: rest =>
    if c ∈ INITIAL_JAMOS then
      match wf.syllables.getLast? with
      | none => .error (.indexError, wf)
      | some last =>
        match last.append c with
        | .error (e, last1) =>
            .error (e, { wf with syllables := wf.syllables.dropLast ++ [last1] })
        | .ok last1 =>
          match decodeAll rest with
          | .error e =>
              .error (e, { wf with syllables := wf.syllables.dropLast ++ [last1] })
          | .ok newSyls =>
            let syls := (wf.syllables.dropLast ++ [last1]) ++ newSyls
            .ok ⟨stringOf syls, buildJamos syls, syls⟩
    else .error (.invalidSuffix, wf)
  | false, suffix =>
    match decodeAll suffix with
    | .error e => .error (e, wf)
    | .ok newSyls =>
      let syls := wf.syllables ++ newSyls
      .ok ⟨stringOf syls, buildJamos syls, syls⟩

/-- The `Word` object: dictionary form, stem, and current inflection.
`lemma` is a Lean keyword, hence the field name `lemma_`. -/
structure Word where
  lemma_ : WordForm
  root : WordForm
  inflection : WordForm
deriving DecidableEq

/-- `Word.__init__`: three independently constructed `WordForm`s of the same
lemma text. -/
def Word.mk? (s : List Char) : Except Err Word :=
  match WordForm.mk? s with
  | .error e => .error e
  | .ok wf => .ok ⟨wf, wf, wf⟩

/-- `Word.copy`: a fresh `Word` from the lemma text whose root and inflection
are replaced by copies of the source's root and inflection. -/
def Word.copy (w : Word) : Except Err Word :=
  match Word.mk? w.lemma_.string with
  | .error e => .error e
  | .ok base =>
    match w.root.copy with
    | .error e => .error e
    | .ok r =>
      match w.inflection.copy with
      | .error e => .error e
      | .ok i => .ok { base with root := r, inflection := i }

/-- The module-level `hangul_vowels` tuple of the source. -/
def hangul_vowels : List Char :=
  ['ㅏ','ㅐ','ㅑ','ㅒ','ㅓ','ㅔ','ㅕ','ㅖ','ㅗ','ㅘ','ㅙ','ㅚ','ㅛ','ㅜ','ㅝ','ㅞ','ㅟ','ㅠ','ㅡ','ㅢ','ㅣ']

/-- The module-level `hangul_consonants` tuple of the source. -/
def hangul_consonants : List Char :=
  ['ㄱ','ㄲ','ㄳ','ㄴ','ㄵ','ㄶ','ㄷ','ㄹ','ㄺ','ㄻ','ㄼ','ㄽ','ㄾ','ㄿ','ㅀ','ㅁ','ㅂ','ㅄ','ㅅ','ㅆ','ㅇ','ㅈ','ㅊ','ㅋ','ㅌ','ㅍ','ㅎ']

/-- Python `str.endswith` with a tuple of single-character strings: the last
character is one of the given units (false on the empty string). -/
def endsWithAny (s : List Char) (units : List Char) : Bool :=
  match s.getLast? with
  | some c => units.contains c
  | none => false

/-- Python `str.endswith` with a single-character string: the last character
equals the given one (false on the empty string). -/
def endsWithChar (s : List Char) (c : Char) : Bool :=
  match s.getLast? with
  | some x => x == c
  | none => false

/-- `Topic.__init__`: rebuild a plain noun from the lemma text, then append
`는` after a vowel-final root and `은` otherwise. -/
def Topic.mk? (word : Word) : Except Err Word :=
  match Word.mk? word.lemma_.string with
  | .error e => .error e
  | .ok w =>
    let allo : Char := if endsWithAny w.root.jamos hangul_vowels then '는' else '은'
    match w.inflection.append [allo] false with
    | .error (e, _) => .error e
    | .ok infl => .ok { w with inflection := infl }

/-- `Subject.__init__`: as `Topic`, with `가` / `이`. -/
def Subject.mk? (word : Word) : Except Err Word :=
  match Word.mk? word.lemma_.string with
  | .error e => .error e
  | .ok w =>
    let allo : Char := if endsWithAny w.root.jamos hangul_vowels then '가' else '이'
    match w.inflection.append [allo] false with
    | .error (e, _) => .error e
    | .ok infl => .ok { w with inflection := infl }

/-- `Object.__init__`: as `Topic`, with `를` / `을`. -/
def Object.mk? (word : Word) : Except Err Word :=
  match Word.mk? word.lemma_.string with
  | .error e => .error e
  | .ok w =>
    let allo : Char := if endsWithAny w.root.jamos hangul_vowels then '를' else '을'
    match w.inflection.append [allo] false with
    | .error (e, _) => .error e
    | .ok infl => .ok { w with inflection := infl }

/-- `Verb.__init__`: build the `Word`, require the lemma to end in `다`, and
set the root to the lemma minus its last syllable. -/
def Verb.mk? (s : List Char) : Except Err Word :=
  match Word.mk? s with
  | .error e => .error e
  | .ok w =>
    if s.getLast? = some '다' then
      match WordForm.mk? s.dropLast with
      | .error e => .error e
      | .ok r => .ok { w with root := r }
    else .error .malformedLemma

/-- `Adjective.__init__`: identical to `Verb.__init__` in the source. -/
def Adjective.mk? (s : List Char) : Except Err Word :=
  match Word.mk? s with
  | .error e => .error e
  | .ok w =>
    if s.getLast? = some '다' then
      match WordForm.mk? s.dropLast with
      | .error e => .error e
      | .ok r => .ok { w with root := r }
    else .error .malformedLemma

/-- `PresentPolite.__init__`: copy the word, reset the inflection to a copy
of the root, then append `ㅂ니다` merged after a vowel-final root and
`습니다` unmerged otherwise. -/
def PresentPolite.mk? (word : Word) : Except Err Word :=
  match word.copy with
  | .error e => .error e
  | .ok w0 =>
    match w0.root.copy with
    | .error e => .error e
    | .ok rcopy =>
      let w : Word := { w0 with inflection := rcopy }
      if endsWithAny w.root.jamos hangul_vowels then
        match w.inflection.append ('ㅂ' :: '니' :: ['다']) true with
        | .error (e, _) => .error e
        | .ok infl => .ok { w with inflection := infl }
      else
        match w.inflection.append ('습' :: '니' :: ['다']) false with
        | .error (e, _) => .error e
        | .ok infl => .ok { w with inflection := infl }

/-- `PastTense.__init__`: only copies the word. -/
def PastTense.mk? (word : Word) : Except Err Word := word.copy

/-- `PastTense._build_base_inflection`, faithfully including its gaps: a root
ending in the syllable `하` silently falls through, the `ㅏ`-class branch
does nothing for `ㅏ`/`ㅑ`/`ㅛ` and hits the undefined loop variable `i`
(`NameError`) for `ㅗ`, and the default branch likewise raises for
`ㅜ`/`ㅣ`/`ㅕ` and silently falls through for everything else. -/
def PastTense.build_base_inflection (w : Word) : Except Err Word :=
  if endsWithChar w.root.string '하' then .ok w
  else if endsWithAny w.root.jamos ['ㅏ','ㅗ','ㅑ','ㅛ'] then
    if endsWithChar w.root.jamos 'ㅗ' then .error .nameError else .ok w
  else
    if endsWithChar w.root.jamos 'ㅜ' then .error .nameError
    else if endsWithChar w.root.jamos 'ㅣ' then .error .nameError
    else if endsWithChar w.root.jamos 'ㅓ' then .ok w
    else if endsWithChar w.root.jamos 'ㅕ' then .error .nameError
    else .ok w

/-- Re-encode a decoded syllable sequence through `Syllable.from_jamos`,
collecting the composed characters. -/
def reencode : List Syllable → Except Err (List Char)
  | [] => .ok []
  | y :: ys =>
    match Syllable.from_jamos y.jamo_initial y.jamo_medial y.jamo_final with
    | .error e => .error e
    | .ok z =>
      match reencode ys with
      | .error e => .error e
      | .ok cs => .ok (z.syllable :: cs)

/-! ### Basic lemmas about indexing and the catalogs -/

theorem toNat_ofNat_valid (n : Nat) (h : n < 55296) : (Char.ofNat n).toNat = n := by
  unfold Char.ofNat
  rw [dif_pos (Or.inl h : n.isValidChar)]
  simp [Char.ofNatAux, Char.toNat, UInt32.toNat]

theorem pyIdx_nat (l : List Char) (k : Nat) : pyIdx l (k : Int) = l.get? k := by
  unfold pyIdx
  rw [if_pos (Int.natCast_nonneg k)]
  simp

theorem pyIdx_isSome_iff (l : List Char) (i : Int) :
    (pyIdx l i).isSome = true ↔ -(l.length : Int) ≤ i ∧ i < (l.length : Int) := by
  unfold pyIdx
  split
  · next h =>
    rw [Option.isSome_iff_ne_none, Ne, List.get?_eq_none]
    omega
  · next h =>
    split
    · next h2 =>
      rw [Option.isSome_iff_ne_none, Ne, List.get?_eq_none]
      omega
    · next h2 =>
      constructor
      · intro hb; simp at hb
      · intro hr; omega

theorem pyIdx_mem {l : List Char} {i : Int} {c : Char} (h : pyIdx l i = some c) : c ∈ l := by
  unfold pyIdx at h
  split at h
  · exact List.get?_mem h
  · split at h
    · exact List.get?_mem h
    · cases h

theorem idxOf?_isSome_iff (l : List Char) (c : Char) :
    (idxOf? l c).isSome = true ↔ c ∈ l := by
  induction l with
  | nil => simp [idxOf?]
  | cons x xs ih =>
    by_cases h : x = c
    · simp [idxOf?, h]
    · simp [idxOf?, h, Option.isSome_map, ih, Ne.symm h]

theorem idxOf?_eq_some {l : List Char} {c : Char} {k : Nat} (h : idxOf? l c = some k) :
    ∃ hk : k < l.length, l.get ⟨k, hk⟩ = c := by
  induction l generalizing k with
  | nil => simp [idxOf?] at h
  | cons x xs ih =>
    simp only [idxOf?] at h
    split at h
    · next hx =>
      cases h
      exact ⟨by simp, hx⟩
    · next hx =>
      cases hk0 : idxOf? xs c with
      | none => rw [hk0] at h; simp at h
      | some k0 =>
        rw [hk0] at h
        simp at h
        subst h
        obtain ⟨hlt, hget⟩ := ih hk0
        exact ⟨by simpa using Nat.succ_lt_succ hlt, hget⟩

theorem idxOf?_of_mem {l : List Char} {c : Char} (h : c ∈ l) :
    ∃ k, idxOf? l c = some k := by
  have := (idxOf?_isSome_iff l c).mpr h
  exact Option.isSome_iff_exists.mp this

theorem idxOf?_get (l : List Char) (hnd : l.Nodup) (k : Nat) (hk : k < l.length) :
    idxOf? l (l.get ⟨k, hk⟩) = some k := by
  induction l generalizing k with
  | nil => simp at hk
  | cons x xs ih =>
    cases k with
    | zero => simp [idxOf?]
    | succ k =>
      have hk' : k < xs.length := by simpa using hk
      have hx : x ≠ xs.get ⟨k, hk'⟩ := by
        intro hc
        exact (List.nodup_cons.mp hnd).1 (hc ▸ List.get_mem xs k hk')
      show idxOf? (x :: xs) (xs.get ⟨k, hk'⟩) = some (k + 1)
      simp only [idxOf?]
      rw [if_neg hx, ih (List.nodup_cons.mp hnd).2 k hk']
      rfl

theorem initial_nodup : INITIAL_JAMOS.Nodup := by decide

theorem medial_nodup : MEDIAL_JAMOS.Nodup := by decide

theorem final_nodup : FINAL_JAMOS.Nodup := by decide

theorem initial_length : INITIAL_JAMOS.length = 19 := rfl

theorem medial_length : MEDIAL_JAMOS.length = 21 := rfl

theorem final_length : FINAL_JAMOS.length = 28 := rfl

/-! ### Codec roundtrip lemmas -/

theorem from_syllable_eq (c : Char) {i m f : Char}
    (h1 : pyIdx INITIAL_JAMOS (((c.toNat : Int) - 44032) / 588) = some i)
    (h2 : pyIdx MEDIAL_JAMOS ((((c.toNat : Int) - 44032) % 588) / 28) = some m)
    (h3 : pyIdx FINAL_JAMOS ((((c.toNat : Int) - 44032) % 588) % 28) = some f) :
    Syllable.from_syllable c = .ok ⟨c, i, m, f⟩ := by
  simp only [Syllable.from_syllable]
  rw [h1, h2, h3]

theorem from_jamos_eq {i m f : Char} {ni nm nf : Nat}
    (h1 : idxOf? INITIAL_JAMOS i = some ni) (h2 : idxOf? MEDIAL_JAMOS m = some nm)
    (h3 : idxOf? FINAL_JAMOS f = some nf) :
    Syllable.from_jamos i m f =
      .ok ⟨Char.ofNat (44032 + ni * 588 + nm * 28 + nf), i, m, f⟩ := by
  simp only [Syllable.from_jamos, Syllable.composeNow]
  rw [h1, h2, h3]

theorem decode_in_block (c : Char) (h1 : 44032 ≤ c.toNat) (h2 : c.toNat < 55204) :
    ∃ y : Syllable, Syllable.from_syllable c = .ok y ∧ y.syllable = c ∧
      idxOf? INITIAL_JAMOS y.jamo_initial = some ((c.toNat - 44032) / 588) ∧
      idxOf? MEDIAL_JAMOS y.jamo_medial = some ((c.toNat - 44032) % 588 / 28) ∧
      idxOf? FINAL_JAMOS y.jamo_final = some ((c.toNat - 44032) % 588 % 28) := by
  have hlenI := initial_length
  have hlenM := medial_length
  have hlenF := final_length
  have hi : (c.toNat - 44032) / 588 < INITIAL_JAMOS.length := by omega
  have hm : (c.toNat - 44032) % 588 / 28 < MEDIAL_JAMOS.length := by omega
  have hf : (c.toNat - 44032) % 588 % 28 < FINAL_JAMOS.length := by omega
  have e1 : ((c.toNat : Int) - 44032) / 588 = (((c.toNat - 44032) / 588 : Nat) : Int) := by
    omega
  have e2 : (((c.toNat : Int) - 44032) % 588) / 28 =
      (((c.toNat - 44032) % 588 / 28 : Nat) : Int) := by omega
  have e3 : (((c.toNat : Int) - 44032) % 588) % 28 =
      (((c.toNat - 44032) % 588 % 28 : Nat) : Int) := by omega
  obtain ⟨ci, hci⟩ : ∃ x, INITIAL_JAMOS.get ⟨(c.toNat - 44032) / 588, hi⟩ = x := ⟨_, rfl⟩
  obtain ⟨cm, hcm⟩ : ∃ x, MEDIAL_JAMOS.get ⟨(c.toNat - 44032) % 588 / 28, hm⟩ = x := ⟨_, rfl⟩
  obtain ⟨cf, hcf⟩ : ∃ x, FINAL_JAMOS.get ⟨(c.toNat - 44032) % 588 % 28, hf⟩ = x := ⟨_, rfl⟩
  refine ⟨⟨c, ci, cm, cf⟩, ?_, rfl, ?_, ?_, ?_⟩
  · exact from_syllable_eq c
      (by rw [e1, pyIdx_nat, List.get?_eq_get hi, hci])
      (by rw [e2, pyIdx_nat, List.get?_eq_get hm, hcm])
      (by rw [e3, pyIdx_nat, List.get?_eq_get hf, hcf])
  · show idxOf? INITIAL_JAMOS ci = some ((c.toNat - 44032) / 588)
    rw [← hci]
    exact idxOf?_get _ initial_nodup _ hi
  · show idxOf? MEDIAL_JAMOS cm = some ((c.toNat - 44032) % 588 / 28)
    rw [← hcm]
    exact idxOf?_get _ medial_nodup _ hm
  · show idxOf? FINAL_JAMOS cf = some ((c.toNat - 44032) % 588 % 28)
    rw [← hcf]
    exact idxOf?_get _ final_nodup _ hf

theorem roundtrip_decode_encode (c : Char) (h1 : 44032 ≤ c.toNat) (h2 : c.toNat < 55204) :
    ∃ y z, Syllable.from_syllable c = .ok y ∧
      Syllable.from_jamos y.jamo_initial y.jamo_medial y.jamo_final = .ok z ∧
      z.syllable = c := by
  obtain ⟨y, hdec, hsyl, hI, hM, hF⟩ := decode_in_block c h1 h2
  obtain ⟨ch0, hch⟩ : ∃ x, Char.ofNat (44032 + (c.toNat - 44032) / 588 * 588 +
      (c.toNat - 44032) % 588 / 28 * 28 + (c.toNat - 44032) % 588 % 28) = x :=
    ⟨_, rfl⟩
  refine ⟨y, ⟨ch0, y.jamo_initial, y.jamo_medial, y.jamo_final⟩, hdec, ?_, ?_⟩
  · rw [← hch]
    exact from_jamos_eq hI hM hF
  · show ch0 = c
    rw [← hch]
    have e : 44032 + (c.toNat - 44032) / 588 * 588 + (c.toNat - 44032) % 588 / 28 * 28 +
        (c.toNat - 44032) % 588 % 28 = c.toNat := by omega
    rw [e, Char.ofNat_toNat]

theorem roundtrip_encode_decode (i m f : Char) (hi : i ∈ INITIAL_JAMOS)
    (hm : m ∈ MEDIAL_JAMOS) (hf : f ∈ FINAL_JAMOS) :
    ∃ z, Syllable.from_jamos i m f = .ok z ∧
      Syllable.from_syllable z.syllable = .ok ⟨z.syllable, i, m, f⟩ := by
  obtain ⟨ni, hni⟩ := idxOf?_of_mem hi
  obtain ⟨nm, hnm⟩ := idxOf?_of_mem hm
  obtain ⟨nf, hnf⟩ := idxOf?_of_mem hf
  obtain ⟨hbi, hgi⟩ := idxOf?_eq_some hni
  obtain ⟨hbm, hgm⟩ := idxOf?_eq_some hnm
  obtain ⟨hbf, hgf⟩ := idxOf?_eq_some hnf
  have hlenI := initial_length
  have hlenM := medial_length
  have hlenF := final_length
  obtain ⟨ch0, hch⟩ : ∃ x, Char.ofNat (44032 + ni * 588 + nm * 28 + nf) = x := ⟨_, rfl⟩
  have htn : ch0.toNat = 44032 + ni * 588 + nm * 28 + nf := by
    rw [← hch]
    apply toNat_ofNat_valid
    omega
  refine ⟨⟨ch0, i, m, f⟩, ?_, ?_⟩
  · rw [← hch]
    exact from_jamos_eq hni hnm hnf
  · show Syllable.from_syllable ch0 = .ok ⟨ch0, i, m, f⟩
    have hblk1 : 44032 ≤ ch0.toNat := by omega
    have hblk2 : ch0.toNat < 55204 := by omega
    obtain ⟨y, hdec, hsyl, hI2, hM2, hF2⟩ := decode_in_block ch0 hblk1 hblk2
    have eI : (ch0.toNat - 44032) / 588 = ni := by omega
    have eM : (ch0.toNat - 44032) % 588 / 28 = nm := by omega
    have eF : (ch0.toNat - 44032) % 588 % 28 = nf := by omega
    rw [eI] at hI2
    rw [eM] at hM2
    rw [eF] at hF2
    obtain ⟨hbi2, hgi2⟩ := idxOf?_eq_some hI2
    obtain ⟨hbm2, hgm2⟩ := idxOf?_eq_some hM2
    obtain ⟨hbf2, hgf2⟩ := idxOf?_eq_some hF2
    have ei : y.jamo_initial = i := by rw [← hgi2]; exact hgi
    have em : y.jamo_medial = m := by rw [← hgm2]; exact hgm
    have ef : y.jamo_final = f := by rw [← hgf2]; exact hgf
    have hy : y = ⟨ch0, i, m, f⟩ := by
      cases y
      simp only [Syllable.mk.injEq]
      exact ⟨hsyl, ei, em, ef⟩
    rw [hy] at hdec
    exact hdec

/-! ### Structural lemmas about decoding, word forms and appends -/

theorem from_syllable_syllable {c : Char} {y : Syllable}
    (h : Syllable.from_syllable c = .ok y) : y.syllable = c := by
  simp only [Syllable.from_syllable] at h
  split at h
  · cases h; rfl
  · cases h

theorem from_syllable_catalogs {c : Char} {y : Syllable}
    (h : Syllable.from_syllable c = .ok y) :
    y.jamo_initial ∈ INITIAL_JAMOS ∧ y.jamo_medial ∈ MEDIAL_JAMOS ∧
      y.jamo_final ∈ FINAL_JAMOS := by
  simp only [Syllable.from_syllable] at h
  split at h
  · next _ _ _ h1 h2 h3 =>
    cases h
    exact ⟨pyIdx_mem h1, pyIdx_mem h2, pyIdx_mem h3⟩
  · cases h

theorem decodeAll_cons {c : Char} {cs : List Char} {ys : List Syllable}
    (h : decodeAll (c :: cs) = .ok ys) :
    ∃ y ys', Syllable.from_syllable c = .ok y ∧ decodeAll cs = .ok ys' ∧ ys = y :: ys' := by
  simp only [decodeAll] at h
  split at h
  · cases h
  · next y hy =>
    split at h
    · cases h
    · next ys' hys => cases h; exact ⟨y, ys', hy, hys, rfl⟩

theorem stringOf_decodeAll {s : List Char} {ys : List Syllable}
    (h : decodeAll s = .ok ys) : stringOf ys = s := by
  induction s generalizing ys with
  | nil =>
    simp only [decodeAll] at h
    cases h
    rfl
  | cons c cs ih =>
    obtain ⟨y, ys', hy, hys, rfl⟩ := decodeAll_cons h
    show y.syllable :: stringOf ys' = c :: cs
    rw [from_syllable_syllable hy, ih hys]

theorem decodeAll_catalogs {s : List Char} {ys : List Syllable}
    (h : decodeAll s = .ok ys) :
    ∀ y ∈ ys, y.jamo_initial ∈ INITIAL_JAMOS ∧ y.jamo_medial ∈ MEDIAL_JAMOS ∧
      y.jamo_final ∈ FINAL_JAMOS := by
  induction s generalizing ys with
  | nil =>
    simp only [decodeAll] at h
    cases h
    intro y hy
    cases hy
  | cons c cs ih =>
    obtain ⟨y, ys', hy, hys, rfl⟩ := decodeAll_cons h
    intro z hz
    cases hz with
    | head => exact from_syllable_catalogs hy
    | tail _ hz => exact ih hys z hz

theorem decodeAll_append {s t : List Char} {ys zs : List Syllable}
    (hs : decodeAll s = .ok ys) (ht : decodeAll t = .ok zs) :
    decodeAll (s ++ t) = .ok (ys ++ zs) := by
  induction s generalizing ys with
  | nil =>
    simp only [decodeAll] at hs
    cases hs
    simpa using ht
  | cons c cs ih =>
    obtain ⟨y, ys', hy, hys, rfl⟩ := decodeAll_cons hs
    show decodeAll (c :: (cs ++ t)) = _
    simp only [decodeAll, hy, ih hys, List.cons_append]

theorem WordForm.mk?_ok {s : List Char} {wf : WordForm} (h : WordForm.mk? s = .ok wf) :
    decodeAll s = .ok wf.syllables ∧ wf.string = s ∧ wf.jamos = buildJamos wf.syllables := by
  unfold WordForm.mk? at h
  split at h
  · cases h
  · next syls heq =>
    cases h
    exact ⟨heq, rfl, rfl⟩

theorem WordForm.mk?_of_decodeAll {s : List Char} {ys : List Syllable}
    (h : decodeAll s = .ok ys) : WordForm.mk? s = .ok ⟨s, buildJamos ys, ys⟩ := by
  unfold WordForm.mk?
  rw [h]

theorem WordForm.copy_of_mk? {s : List Char} {wf : WordForm}
    (h : WordForm.mk? s = .ok wf) : wf.copy = .ok wf := by
  obtain ⟨hdec, hstr, hjam⟩ := WordForm.mk?_ok h
  unfold WordForm.copy
  rw [hstr, WordForm.mk?_of_decodeAll hdec]
  cases wf
  simp only [WordForm.mk.injEq]
  simp_all

theorem WordForm.append_false_ok (wf : WordForm) {suffix : List Char} {newSyls : List Syllable}
    (h : decodeAll suffix = .ok newSyls) :
    wf.append suffix false =
      .ok ⟨stringOf (wf.syllables ++ newSyls), buildJamos (wf.syllables ++ newSyls),
        wf.syllables ++ newSyls⟩ := by
  simp only [WordForm.append]
  rw [h]

theorem WordForm.append_false_error {wf : WordForm} {suffix : List Char} {e : Err}
    {wf' : WordForm} (h : wf.append suffix false = .error (e, wf')) : wf' = wf := by
  simp only [WordForm.append] at h
  split at h
  · cases h; rfl
  · cases h

/-! ### The flat jamo sequence and the phonological classifier -/

theorem jamoChunk_getLast? (y : Syllable) :
    (jamoChunk y).getLast? =
      some (if y.jamo_final ≠ JAMO_NONE then y.jamo_final else y.jamo_medial) := by
  unfold jamoChunk
  by_cases hf : y.jamo_final ≠ JAMO_NONE <;> simp [hf]

theorem jamoChunk_ne_nil (y : Syllable) : jamoChunk y ≠ [] := by
  unfold jamoChunk
  simp

theorem buildJamos_getLast? {syls : List Syllable} {y : Syllable}
    (h : syls.getLast? = some y) :
    (buildJamos syls).getLast? =
      some (if y.jamo_final ≠ JAMO_NONE then y.jamo_final else y.jamo_medial) := by
  induction syls with
  | nil => cases h
  | cons z zs ih =>
    cases zs with
    | nil =>
      have hz : z = y := by simpa using h
      subst hz
      show (jamoChunk z ++ buildJamos []).getLast? = _
      rw [show buildJamos [] = [] from rfl, List.append_nil]
      exact jamoChunk_getLast? z
    | cons z2 zs2 =>
      have h' : (z2 :: zs2).getLast? = some y := (List.getLast?_cons_cons).symm.trans h
      show (jamoChunk z ++ buildJamos (z2 :: zs2)).getLast? = _
      rw [List.getLast?_append, ih h']
      rfl

theorem endsWithChar_buildJamos {syls : List Syllable} {y : Syllable}
    (h : syls.getLast? = some y) (u : Char) :
    endsWithChar (buildJamos syls) u = y.endswith u := by
  unfold endsWithChar Syllable.endswith
  rw [buildJamos_getLast? h]
  by_cases hf : y.jamo_final ≠ JAMO_NONE
  · rw [if_pos hf, if_pos (by simpa [JAMO_NONE] using hf)]
  · rw [if_neg hf, if_neg (by simpa [JAMO_NONE] using hf)]

theorem endsWithAny_eq_contains {s : List Char} {x : Char} (h : s.getLast? = some x)
    (units : List Char) : endsWithAny s units = units.contains x := by
  unfold endsWithAny
  rw [h]

theorem endsWithChar_eq_beq {s : List Char} {x : Char} (h : s.getLast? = some x)
    (u : Char) : endsWithChar s u = (x == u) := by
  unfold endsWithChar
  rw [h]

/-! ### Merge appends -/

theorem composeNow_error {s : Syllable} {e : Err}
    (h : Syllable.composeNow s = .error e) : e = .rangeError := by
  simp only [Syllable.composeNow] at h
  split at h
  · cases h
  · cases h; rfl

theorem Syllable.append_guard {y : Syllable} {f : Char} {y' : Syllable}
    (h : y.append f = .error (.finalAlreadySet, y')) : y' = y := by
  simp only [Syllable.append] at h
  split at h
  · cases h; rfl
  · split at h
    · cases h
    · next heq =>
      cases h
      cases composeNow_error heq

theorem Syllable.append_ok {y : Syllable} {f : Char} {y' : Syllable}
    (h : y.append f = .ok y') :
    y.jamo_final = JAMO_NONE ∧ y'.jamo_final = f ∧ y'.jamo_initial = y.jamo_initial ∧
      y'.jamo_medial = y.jamo_medial := by
  simp only [Syllable.append] at h
  split at h
  · cases h
  · next hguard =>
    refine ⟨not_not.mp hguard, ?_⟩
    split at h
    · next s2 hcomp =>
      cases h
      simp only [Syllable.composeNow] at hcomp
      split at hcomp
      · cases hcomp; exact ⟨rfl, rfl, rfl⟩
      · cases hcomp
    · cases h

theorem Syllable.append_ok_of (y : Syllable) (f : Char)
    (hguard : y.jamo_final = JAMO_NONE)
    (hi : y.jamo_initial ∈ INITIAL_JAMOS) (hm : y.jamo_medial ∈ MEDIAL_JAMOS)
    (hf : f ∈ FINAL_JAMOS) :
    ∃ y', y.append f = .ok y' ∧ y'.jamo_initial = y.jamo_initial ∧
      y'.jamo_medial = y.jamo_medial ∧ y'.jamo_final = f := by
  obtain ⟨ni, hni⟩ := idxOf?_of_mem hi
  obtain ⟨nm, hnm⟩ := idxOf?_of_mem hm
  obtain ⟨nf, hnf⟩ := idxOf?_of_mem hf
  simp only [Syllable.append]
  rw [if_neg (by rw [hguard]; exact not_not.mpr rfl)]
  have hcomp : ({ y with jamo_final := f } : Syllable).composeNow =
      .ok ⟨Char.ofNat (44032 + ni * 588 + nm * 28 + nf), y.jamo_initial, y.jamo_medial, f⟩ := by
    simp only [Syllable.composeNow]
    rw [hni, hnm, hnf]
  refine ⟨⟨Char.ofNat (44032 + ni * 588 + nm * 28 + nf), y.jamo_initial, y.jamo_medial, f⟩,
    ?_, rfl, rfl, rfl⟩
  rw [hcomp]

theorem from_syllable_error {c : Char} {e : Err}
    (h : Syllable.from_syllable c = .error e) : e = .indexError := by
  simp only [Syllable.from_syllable] at h
  split at h
  · cases h
  · cases h; rfl

theorem decodeAll_error {s : List Char} {e : Err} (h : decodeAll s = .error e) :
    e = .indexError := by
  induction s with
  | nil => simp only [decodeAll] at h; cases h
  | cons c cs ih =>
    simp only [decodeAll] at h
    split at h
    · next he => cases h; exact from_syllable_error he
    · split at h
      · next he => cases h; exact ih he
      · cases h

theorem Syllable.append_error_kind {y : Syllable} {f : Char} {e : Err} {y' : Syllable}
    (h : y.append f = .error (e, y')) : e = .finalAlreadySet ∨ e = .rangeError := by
  simp only [Syllable.append] at h
  split at h
  · cases h; exact Or.inl rfl
  · split at h
    · cases h
    · next heq => cases h; exact Or.inr (composeNow_error heq)

theorem dropLast_append_getLast? {α : Type} {l : List α} {a : α}
    (h : l.getLast? = some a) : l.dropLast ++ [a] = l := by
  have hne : l ≠ [] := by rintro rfl; cases h
  have h2 := List.getLast?_eq_getLast l hne
  rw [h2] at h
  cases h
  exact List.dropLast_append_getLast hne

theorem WordForm.append_merge_not_initial {wf : WordForm} {c : Char} {rest : List Char}
    (h : c ∉ INITIAL_JAMOS) :
    wf.append (c :: rest) true = .error (.invalidSuffix, wf) := by
  simp only [WordForm.append]
  rw [if_neg h]

theorem WordForm.append_merge_ok_struct {wf : WordForm} {c : Char} {rest : List Char}
    {wf' : WordForm} (h : wf.append (c :: rest) true = .ok wf') :
    c ∈ INITIAL_JAMOS ∧
      ∃ last last1 rsyls, wf.syllables.getLast? = some last ∧
        last.append c = .ok last1 ∧
        decodeAll rest = .ok rsyls ∧
        wf'.syllables = (wf.syllables.dropLast ++ [last1]) ++ rsyls ∧
        wf'.string = stringOf wf'.syllables ∧ wf'.jamos = buildJamos wf'.syllables := by
  simp only [WordForm.append] at h
  by_cases hc : c ∈ INITIAL_JAMOS
  · rw [if_pos hc] at h
    refine ⟨hc, ?_⟩
    split at h
    · cases h
    · next last hlast =>
      split at h
      · cases h
      · next last1 happ =>
        split at h
        · cases h
        · next rsyls hrest =>
          cases h
          exact ⟨last, last1, rsyls, hlast, happ, hrest, rfl, rfl, rfl⟩
  · rw [if_neg hc] at h
    cases h

theorem WordForm.append_merge_ok_of (wf : WordForm) {c : Char} {rest : List Char}
    {last last1 : Syllable} {rsyls : List Syllable}
    (hc : c ∈ INITIAL_JAMOS) (hlast : wf.syllables.getLast? = some last)
    (happ : last.append c = .ok last1) (hrest : decodeAll rest = .ok rsyls) :
    wf.append (c :: rest) true =
      .ok ⟨stringOf ((wf.syllables.dropLast ++ [last1]) ++ rsyls),
        buildJamos ((wf.syllables.dropLast ++ [last1]) ++ rsyls),
        (wf.syllables.dropLast ++ [last1]) ++ rsyls⟩ := by
  simp only [WordForm.append]
  rw [if_pos hc]
  simp only [hlast, happ, hrest]

theorem WordForm.append_merge_invalidSuffix {wf : WordForm} {suffix : List Char}
    {wf' : WordForm} (h : wf.append suffix true = .error (.invalidSuffix, wf')) :
    wf' = wf := by
  match suffix with
  | [] => simp [WordForm.append] at h
  | c :: rest =>
    simp only [WordForm.append] at h
    by_cases hc : c ∈ INITIAL_JAMOS
    · rw [if_pos hc] at h
      split at h
      · cases h
      · next last hlast =>
        split at h
        · next e last1 happ =>
          cases h
          rcases Syllable.append_error_kind happ with h1 | h1 <;> cases h1
        · next last1 happ =>
          split at h
          · next e hrest =>
            cases h
            cases decodeAll_error hrest
          · cases h
    · rw [if_neg hc] at h
      cases h
      rfl

theorem WordForm.append_merge_finalAlreadySet {wf : WordForm} {suffix : List Char}
    {wf' : WordForm} (h : wf.append suffix true = .error (.finalAlreadySet, wf')) :
    wf' = wf := by
  match suffix with
  | [] => simp [WordForm.append] at h
  | c :: rest =>
    simp only [WordForm.append] at h
    by_cases hc : c ∈ INITIAL_JAMOS
    · rw [if_pos hc] at h
      split at h
      · cases h
      · next last hlast =>
        split at h
        · next e last1 happ =>
          cases h
          have hl1 : last1 = last := Syllable.append_guard happ
          subst hl1
          show { wf with syllables := wf.syllables.dropLast ++ [last1] } = wf
          rw [dropLast_append_getLast? hlast]
        · next last1 happ =>
          split at h
          · next e hrest =>
            cases h
            cases decodeAll_error hrest
          · cases h
    · rw [if_neg hc] at h
      cases h

/-! ### Words, predicates, particles and conjugations -/

theorem Word.mk?_okW {s : List Char} {w : Word} (h : Word.mk? s = .ok w) :
    WordForm.mk? s = .ok w.lemma_ ∧ w.root = w.lemma_ ∧ w.inflection = w.lemma_ := by
  unfold Word.mk? at h
  split at h
  · cases h
  · next wf heq =>
    cases h
    exact ⟨heq, rfl, rfl⟩

theorem Word.mk?_of {s : List Char} {wf : WordForm} (h : WordForm.mk? s = .ok wf) :
    Word.mk? s = .ok ⟨wf, wf, wf⟩ := by
  unfold Word.mk?
  rw [h]

theorem Word.copy_eq {w : Word}
    (hl : WordForm.mk? w.lemma_.string = .ok w.lemma_)
    (hr : WordForm.mk? w.root.string = .ok w.root)
    (hi : WordForm.mk? w.inflection.string = .ok w.inflection) :
    w.copy = .ok w := by
  unfold Word.copy
  rw [Word.mk?_of hl]
  unfold WordForm.copy
  rw [hr, hi]

theorem Verb.mk?_okV {s : List Char} {w : Word} (h : Verb.mk? s = .ok w) :
    ∃ wfL wfR, WordForm.mk? s = .ok wfL ∧ s.getLast? = some '다' ∧
      WordForm.mk? s.dropLast = .ok wfR ∧ w = ⟨wfL, wfR, wfL⟩ := by
  unfold Verb.mk? at h
  split at h
  · cases h
  · next w0 hw0 =>
    obtain ⟨hl, hroot, hinfl⟩ := Word.mk?_okW hw0
    split at h
    · next hda =>
      split at h
      · cases h
      · next r hra =>
        cases h
        refine ⟨w0.lemma_, r, hl, hda, hra, ?_⟩
        show ({ w0 with root := r } : Word) = _
        cases w0
        simp only [Word.mk.injEq]
        simp_all
    · cases h

theorem Adjective.mk?_okA {s : List Char} {w : Word} (h : Adjective.mk? s = .ok w) :
    ∃ wfL wfR, WordForm.mk? s = .ok wfL ∧ s.getLast? = some '다' ∧
      WordForm.mk? s.dropLast = .ok wfR ∧ w = ⟨wfL, wfR, wfL⟩ := by
  unfold Adjective.mk? at h
  split at h
  · cases h
  · next w0 hw0 =>
    obtain ⟨hl, hroot, hinfl⟩ := Word.mk?_okW hw0
    split at h
    · next hda =>
      split at h
      · cases h
      · next r hra =>
        cases h
        refine ⟨w0.lemma_, r, hl, hda, hra, ?_⟩
        show ({ w0 with root := r } : Word) = _
        cases w0
        simp only [Word.mk.injEq]
        simp_all
    · cases h

theorem Verb.mk?_malformedV {s : List Char} {w0 : Word} (hw0 : Word.mk? s = .ok w0)
    (h : s.getLast? ≠ some '다') : Verb.mk? s = .error .malformedLemma := by
  simp only [Verb.mk?, hw0]
  rw [if_neg h]

theorem Adjective.mk?_malformedA {s : List Char} {w0 : Word} (hw0 : Word.mk? s = .ok w0)
    (h : s.getLast? ≠ some '다') : Adjective.mk? s = .error .malformedLemma := by
  simp only [Adjective.mk?, hw0]
  rw [if_neg h]

theorem stringOf_append (a b : List Syllable) :
    stringOf (a ++ b) = stringOf a ++ stringOf b := List.map_append _ _ _

theorem WordForm.mk?_self {s : List Char} {wf : WordForm}
    (h : WordForm.mk? s = .ok wf) : WordForm.mk? wf.string = .ok wf := by
  rw [(WordForm.mk?_ok h).2.1]
  exact h

theorem particle_append {s : List Char} {wf : WordForm} (h : WordForm.mk? s = .ok wf)
    {c : Char} {y : Syllable} (hy : Syllable.from_syllable c = .ok y) :
    wf.append [c] false =
      .ok ⟨s ++ [c], buildJamos (wf.syllables ++ [y]), wf.syllables ++ [y]⟩ := by
  obtain ⟨hdec, hstr, hjam⟩ := WordForm.mk?_ok h
  have h1 : decodeAll [c] = .ok [y] := by
    simp only [decodeAll, hy]
  have h2 := WordForm.append_false_ok wf h1
  rw [h2]
  have hs2 : stringOf (wf.syllables ++ [y]) = s ++ [c] := by
    rw [stringOf_append, stringOf_decodeAll hdec,
      show stringOf [y] = [y.syllable] from rfl, from_syllable_syllable hy]
  rw [hs2]

theorem particle_core {s : List Char} {w : Word} (h : Word.mk? s = .ok w)
    (chV chC : Char) {yv yc : Syllable}
    (hv : Syllable.from_syllable chV = .ok yv) (hcc : Syllable.from_syllable chC = .ok yc) :
    ∃ infl, w.inflection.append
        [if endsWithAny w.root.jamos hangul_vowels then chV else chC] false = .ok infl ∧
      infl.string = s ++ [if endsWithAny w.root.jamos hangul_vowels then chV else chC] := by
  obtain ⟨hl, hroot, hinfl⟩ := Word.mk?_okW h
  rw [hinfl]
  by_cases hb : endsWithAny w.root.jamos hangul_vowels
  · rw [if_pos hb]
    exact ⟨_, particle_append hl hv, rfl⟩
  · rw [if_neg hb]
    exact ⟨_, particle_append hl hcc, rfl⟩

theorem Topic.mk?_eqT {s : List Char} {w : Word} (h : Word.mk? s = .ok w)
    {yv yc : Syllable}
    (hv : Syllable.from_syllable '는' = .ok yv) (hcc : Syllable.from_syllable '은' = .ok yc) :
    ∃ t, Topic.mk? w = .ok t ∧
      t.inflection.string =
        s ++ [if endsWithAny w.root.jamos hangul_vowels then '는' else '은'] := by
  obtain ⟨hl, hroot, hinfl⟩ := Word.mk?_okW h
  have hstr : w.lemma_.string = s := (WordForm.mk?_ok hl).2.1
  obtain ⟨infl, happ, hstr2⟩ := particle_core h '는' '은' hv hcc
  refine ⟨{ w with inflection := infl }, ?_, hstr2⟩
  unfold Topic.mk?
  rw [hstr, h]
  show (match w.inflection.append
      [if endsWithAny w.root.jamos hangul_vowels then '는' else '은'] false with
    | .error (e, _) => Except.error e
    | .ok infl => (Except.ok { w with inflection := infl } : Except Err Word)) = _
  rw [happ]

theorem Subject.mk?_eqS {s : List Char} {w : Word} (h : Word.mk? s = .ok w)
    {yv yc : Syllable}
    (hv : Syllable.from_syllable '가' = .ok yv) (hcc : Syllable.from_syllable '이' = .ok yc) :
    ∃ t, Subject.mk? w = .ok t ∧
      t.inflection.string =
        s ++ [if endsWithAny w.root.jamos hangul_vowels then '가' else '이'] := by
  obtain ⟨hl, hroot, hinfl⟩ := Word.mk?_okW h
  have hstr : w.lemma_.string = s := (WordForm.mk?_ok hl).2.1
  obtain ⟨infl, happ, hstr2⟩ := particle_core h '가' '이' hv hcc
  refine ⟨{ w with inflection := infl }, ?_, hstr2⟩
  unfold Subject.mk?
  rw [hstr, h]
  show (match w.inflection.append
      [if endsWithAny w.root.jamos hangul_vowels then '가' else '이'] false with
    | .error (e, _) => Except.error e
    | .ok infl => (Except.ok { w with inflection := infl } : Except Err Word)) = _
  rw [happ]

theorem Object.mk?_eqO {s : List Char} {w : Word} (h : Word.mk? s = .ok w)
    {yv yc : Syllable}
    (hv : Syllable.from_syllable '를' = .ok yv) (hcc : Syllable.from_syllable '을' = .ok yc) :
    ∃ t, Object.mk? w = .ok t ∧
      t.inflection.string =
        s ++ [if endsWithAny w.root.jamos hangul_vowels then '를' else '을'] := by
  obtain ⟨hl, hroot, hinfl⟩ := Word.mk?_okW h
  have hstr : w.lemma_.string = s := (WordForm.mk?_ok hl).2.1
  obtain ⟨infl, happ, hstr2⟩ := particle_core h '를' '을' hv hcc
  refine ⟨{ w with inflection := infl }, ?_, hstr2⟩
  unfold Object.mk?
  rw [hstr, h]
  show (match w.inflection.append
      [if endsWithAny w.root.jamos hangul_vowels then '를' else '을'] false with
    | .error (e, _) => Except.error e
    | .ok infl => (Except.ok { w with inflection := infl } : Except Err Word)) = _
  rw [happ]

/-! ### Range characterization of the codec -/

theorem reencode_decodeAll {s : List Char} {ys : List Syllable}
    (hs : ∀ c ∈ s, 44032 ≤ c.toNat ∧ c.toNat < 55204)
    (h : decodeAll s = .ok ys) : reencode ys = .ok s := by
  induction s generalizing ys with
  | nil =>
    simp only [decodeAll] at h
    cases h
    rfl
  | cons c cs ih =>
    obtain ⟨y, ys', hy, hys, rfl⟩ := decodeAll_cons h
    obtain ⟨y2, z, hdec2, henc, hz⟩ :=
      roundtrip_decode_encode c (hs c (by simp)).1 (hs c (by simp)).2
    rw [hy] at hdec2
    cases hdec2
    simp only [reencode]
    rw [henc, ih (fun c2 hc2 => hs c2 (by simp [hc2])) hys]
    show Except.ok (z.syllable :: cs) = Except.ok (c :: cs)
    rw [hz]

theorem from_syllable_ok_range (c : Char) (h1 : 32860 ≤ c.toNat) (h2 : c.toNat ≤ 55203) :
    ∃ y, Syllable.from_syllable c = .ok y := by
  have hlenI := initial_length
  have hlenM := medial_length
  have hlenF := final_length
  have hI : (pyIdx INITIAL_JAMOS (((c.toNat : Int) - 44032) / 588)).isSome = true := by
    rw [pyIdx_isSome_iff]
    rw [hlenI]
    omega
  have hM : (pyIdx MEDIAL_JAMOS ((((c.toNat : Int) - 44032) % 588) / 28)).isSome = true := by
    rw [pyIdx_isSome_iff]
    rw [hlenM]
    omega
  have hF : (pyIdx FINAL_JAMOS ((((c.toNat : Int) - 44032) % 588) % 28)).isSome = true := by
    rw [pyIdx_isSome_iff]
    rw [hlenF]
    omega
  obtain ⟨i, hi⟩ := Option.isSome_iff_exists.mp hI
  obtain ⟨m, hm⟩ := Option.isSome_iff_exists.mp hM
  obtain ⟨f, hf⟩ := Option.isSome_iff_exists.mp hF
  exact ⟨⟨c, i, m, f⟩, from_syllable_eq c hi hm hf⟩

theorem from_syllable_error_range (c : Char)
    (h : c.toNat < 32860 ∨ 55203 < c.toNat) :
    Syllable.from_syllable c = .error .indexError := by
  have hlenI := initial_length
  have hI : pyIdx INITIAL_JAMOS (((c.toNat : Int) - 44032) / 588) = none := by
    rw [← Option.not_isSome_iff_eq_none]
    rw [pyIdx_isSome_iff, hlenI]
    omega
  simp only [Syllable.from_syllable]
  rw [hI]

theorem from_jamos_error_of {i m f : Char}
    (h : ¬(i ∈ INITIAL_JAMOS ∧ m ∈ MEDIAL_JAMOS ∧ f ∈ FINAL_JAMOS)) :
    Syllable.from_jamos i m f = .error .rangeError := by
  simp only [Syllable.from_jamos, Syllable.composeNow]
  cases hI : idxOf? INITIAL_JAMOS i with
  | none => rfl
  | some ni =>
    cases hM : idxOf? MEDIAL_JAMOS m with
    | none => rfl
    | some nm =>
      cases hF : idxOf? FINAL_JAMOS f with
      | none => rfl
      | some nf =>
        exfalso
        apply h
        refine ⟨?_, ?_, ?_⟩
        · rw [← idxOf?_isSome_iff, hI]; rfl
        · rw [← idxOf?_isSome_iff, hM]; rfl
        · rw [← idxOf?_isSome_iff, hF]; rfl

/-! ### Concrete word forms used as witnesses -/

/-- The decoded form of the single-syllable string `가`. -/
def formGa : WordForm := ⟨['가'], ['ㄱ', 'ㅏ'], [⟨'가', 'ㄱ', 'ㅏ', ' '⟩]⟩

/-- The state `가`'s form is left in when a merge append fails after
mutating the final jamo of the last syllable to `ㄸ`: the syllable list is
mutated while the derived surface and jamo strings are stale. -/
def formGaBroken : WordForm := ⟨['가'], ['ㄱ', 'ㅏ'], [⟨'가', 'ㄱ', 'ㅏ', 'ㄸ'⟩]⟩

/-- The result of merging `ㅂ` into `가`. -/
def formGab : WordForm := ⟨['갑'], ['ㄱ', 'ㅏ', 'ㅂ'], [⟨'갑', 'ㄱ', 'ㅏ', 'ㅂ'⟩]⟩

theorem final_vowels_sentinel :
    ∀ c ∈ FINAL_JAMOS, c ∈ hangul_vowels → c = ' ' := by decide

theorem mem_of_getLast?' {α : Type} {l : List α} {a : α}
    (h : l.getLast? = some a) : a ∈ l := by
  have hne : l ≠ [] := by rintro rfl; cases h
  have h2 := List.getLast?_eq_getLast l hne
  rw [h2] at h
  cases h
  exact List.getLast_mem hne

theorem presentPolite_branches {s : List Char} {v : Word} (h : Verb.mk? s = .ok v) :
    (endsWithAny v.root.jamos hangul_vowels = false →
      ∃ p, PresentPolite.mk? v = .ok p ∧
        p.inflection.string = v.root.string ++ ('습' :: '니' :: ['다']))
  ∧ (endsWithAny v.root.jamos hangul_vowels = true →
      ∃ infl, v.root.append ('ㅂ' :: '니' :: ['다']) true = .ok infl ∧
        PresentPolite.mk? v = .ok { v with inflection := infl }) := by
  obtain ⟨wfL, wfR, hL, hda, hR, rfl⟩ := Verb.mk?_okV h
  have hLs : WordForm.mk? wfL.string = .ok wfL := WordForm.mk?_self hL
  have hRs : WordForm.mk? wfR.string = .ok wfR := WordForm.mk?_self hR
  have hcopy : (⟨wfL, wfR, wfL⟩ : Word).copy = .ok ⟨wfL, wfR, wfL⟩ :=
    Word.copy_eq hLs hRs hLs
  have hRc : wfR.copy = .ok wfR := by
    unfold WordForm.copy
    exact hRs
  obtain ⟨hdecR, hstrR, hjamR⟩ := WordForm.mk?_ok hR
  constructor
  · intro hb
    obtain ⟨ys, hys⟩ : ∃ ys, decodeAll ('습' :: '니' :: ['다']) = .ok ys := ⟨_, rfl⟩
    have happF := WordForm.append_false_ok wfR hys
    refine ⟨⟨wfL, wfR, ⟨stringOf (wfR.syllables ++ ys),
      buildJamos (wfR.syllables ++ ys), wfR.syllables ++ ys⟩⟩, ?_, ?_⟩
    · simp only [PresentPolite.mk?, hcopy, hRc, hb, Bool.false_eq_true, if_false, happF]
    · show stringOf (wfR.syllables ++ ys) = wfR.string ++ ('습' :: '니' :: ['다'])
      rw [stringOf_append, stringOf_decodeAll hdecR, stringOf_decodeAll hys, hstrR]
  · intro hb
    obtain ⟨x, hgl, hxv⟩ : ∃ x, wfR.jamos.getLast? = some x ∧ x ∈ hangul_vowels := by
      unfold endsWithAny at hb
      cases hgl : wfR.jamos.getLast? with
      | none => rw [hgl] at hb; cases hb
      | some x =>
        rw [hgl] at hb
        exact ⟨x, rfl, by simpa using hb⟩
    obtain ⟨last, hlast⟩ : ∃ last, wfR.syllables.getLast? = some last := by
      cases hsyl : wfR.syllables with
      | nil =>
        rw [hjamR, hsyl] at hgl
        cases hgl
      | cons z zs =>
        exact ⟨(z :: zs).getLast (by simp), List.getLast?_eq_getLast _ _⟩
    have hx : x = if last.jamo_final ≠ JAMO_NONE then last.jamo_final else last.jamo_medial := by
      have hbl := buildJamos_getLast? hlast
      rw [← hjamR] at hbl
      rw [hbl] at hgl
      exact (Option.some_inj.mp hgl).symm
    obtain ⟨hli, hlm, hlf⟩ := decodeAll_catalogs hdecR last (mem_of_getLast?' hlast)
    have hlf0 : last.jamo_final = JAMO_NONE := by
      by_cases hf : last.jamo_final = JAMO_NONE
      · exact hf
      · exfalso
        rw [hx, if_pos hf] at hxv
        exact hf (final_vowels_sentinel last.jamo_final hlf hxv)
    obtain ⟨last1, happ1, h1i, h1m, h1f⟩ :=
      Syllable.append_ok_of last 'ㅂ' hlf0 hli hlm (by decide)
    obtain ⟨ys, hys⟩ : ∃ ys, decodeAll ('니' :: ['다']) = .ok ys := ⟨_, rfl⟩
    have happ := WordForm.append_merge_ok_of wfR
      (show 'ㅂ' ∈ INITIAL_JAMOS by decide) hlast happ1 hys
    refine ⟨_, happ, ?_⟩
    simp only [PresentPolite.mk?, hcopy, hRc, hb, if_true, happ]

/-! ### Claim theorems -/

/-- C1: the syllable codec is a bijection on its valid domain.  For every
composed syllable character in the 11172-codepoint Hangul block, decoding
and re-encoding the resulting jamos reproduces the character; for every
jamo triple drawn from the three catalogs, encoding and decoding returns the
same triple; and a `WordForm` built from a valid surface string re-encodes
(syllable by syllable, through `Syllable.from_jamos`) to the identical
surface string. -/
theorem claim_C1_codec_bijection :
    (∀ c : Char, 44032 ≤ c.toNat → c.toNat < 55204 →
      ∃ y z, Syllable.from_syllable c = .ok y ∧
        Syllable.from_jamos y.jamo_initial y.jamo_medial y.jamo_final = .ok z ∧
        z.syllable = c)
  ∧ (∀ i m f : Char, i ∈ INITIAL_JAMOS → m ∈ MEDIAL_JAMOS → f ∈ FINAL_JAMOS →
      ∃ z, Syllable.from_jamos i m f = .ok z ∧
        Syllable.from_syllable z.syllable = .ok ⟨z.syllable, i, m, f⟩)
  ∧ (∀ (s : List Char) (wf : WordForm), (∀ c ∈ s, 44032 ≤ c.toNat ∧ c.toNat < 55204) →
      WordForm.mk? s = .ok wf → reencode wf.syllables = .ok wf.string) := by
  refine ⟨roundtrip_decode_encode, roundtrip_encode_decode, ?_⟩
  intro s wf hs h
  obtain ⟨hdec, hstr, hjam⟩ := WordForm.mk?_ok h
  rw [hstr]
  exact reencode_decodeAll hs hdec

/-- C1 witness: the roundtrips hold at the concrete character `가`, the
concrete triple `(ㄴ, ㅏ, ㄴ)`, and the concrete one-syllable word form of
`가`. -/
theorem claim_C1_codec_bijection_witness :
    (∃ y z, Syllable.from_syllable '가' = .ok y ∧
      Syllable.from_jamos y.jamo_initial y.jamo_medial y.jamo_final = .ok z ∧
      z.syllable = '가')
  ∧ (∃ z, Syllable.from_jamos 'ㄴ' 'ㅏ' 'ㄴ' = .ok z ∧
      Syllable.from_syllable z.syllable = .ok ⟨z.syllable, 'ㄴ', 'ㅏ', 'ㄴ'⟩)
  ∧ reencode formGa.syllables = .ok formGa.string :=
  ⟨claim_C1_codec_bijection.1 '가' (by decide) (by decide),
   claim_C1_codec_bijection.2.1 'ㄴ' 'ㅏ' 'ㄴ' (by decide) (by decide) (by decide),
   claim_C1_codec_bijection.2.2 "가".toList formGa (by decide) (by rfl)⟩

/-- C2 counterexample: the character U+ABFF lies below the Hangul syllable
block (codepoint 44031 < 44032), yet `Syllable.from_syllable` silently
returns a `Syllable` for it instead of failing — Python's negative list
indexing wraps the out-of-range initial index around to `ㅎ`. -/
theorem claim_C2_counterexample :
    ('꯿').toNat < 44032 ∧
    Syllable.from_syllable '꯿' = .ok ⟨'꯿', 'ㅎ', 'ㅣ', 'ㅎ'⟩ :=
  ⟨by decide, by rfl⟩

/-- C2 (amended): decoding raises only when the derived initial index is out
of range even for Python's negative indexing: it silently produces a
`Syllable` for every codepoint in `[32860, 55203]` (which strictly contains
the Hangul block `[44032, 55203]`) and raises an `IndexError` outside that
range; encoding fails (the `ValueError` of `str.index`) exactly when some
jamo argument is outside its catalog. -/
theorem claim_C2_amended :
    (∀ c : Char, 32860 ≤ c.toNat → c.toNat ≤ 55203 →
      ∃ y, Syllable.from_syllable c = .ok y)
  ∧ (∀ c : Char, c.toNat < 32860 ∨ 55203 < c.toNat →
      Syllable.from_syllable c = .error .indexError)
  ∧ (∀ i m f : Char, i ∈ INITIAL_JAMOS → m ∈ MEDIAL_JAMOS → f ∈ FINAL_JAMOS →
      ∃ z, Syllable.from_jamos i m f = .ok z)
  ∧ (∀ i m f : Char, ¬(i ∈ INITIAL_JAMOS ∧ m ∈ MEDIAL_JAMOS ∧ f ∈ FINAL_JAMOS) →
      Syllable.from_jamos i m f = .error .rangeError) := by
  refine ⟨from_syllable_ok_range, from_syllable_error_range, ?_, fun _ _ _ h => from_jamos_error_of h⟩
  intro i m f hi hm hf
  obtain ⟨z, hz, _⟩ := roundtrip_encode_decode i m f hi hm hf
  exact ⟨z, hz⟩

/-- C2 amended witness: concrete instances of all four parts — U+ABFF
decodes silently, `A` raises, `(ㄱ, ㅏ, ' ')` encodes, and an initial
outside the catalog (`ㄳ`) makes encoding raise. -/
theorem claim_C2_amended_witness :
    (∃ y, Syllable.from_syllable '꯿' = .ok y)
  ∧ Syllable.from_syllable 'A' = .error .indexError
  ∧ (∃ z, Syllable.from_jamos 'ㄱ' 'ㅏ' ' ' = .ok z)
  ∧ Syllable.from_jamos 'ㄳ' 'ㅏ' ' ' = .error .rangeError :=
  ⟨claim_C2_amended.1 '꯿' (by decide) (by decide),
   claim_C2_amended.2.1 'A' (by decide),
   claim_C2_amended.2.2.1 'ㄱ' 'ㅏ' ' ' (by decide) (by decide) (by decide),
   claim_C2_amended.2.2.2 'ㄳ' 'ㅏ' ' ' (by decide)⟩

/-- C3 counterexample: the merge guard checks the 19-entry initial catalog,
not the final catalog.  `ㄳ` is a non-sentinel entry of the final catalog,
the last syllable of `가` has no final consonant, and yet appending `ㄳ`
with merge fails with `InvalidSuffixError`; conversely `ㄸ` is not in the
final catalog at all, and yet the merge guard lets it through (the call then
fails later inside the codec, not with `InvalidSuffixError`). -/
theorem claim_C3_counterexample :
    'ㄳ' ∈ FINAL_JAMOS ∧ 'ㄳ' ≠ JAMO_NONE ∧
    WordForm.mk? "가".toList = .ok formGa ∧
    formGa.syllables.map (fun y => y.jamo_final) = [' '] ∧
    formGa.append ['ㄳ'] true = .error (.invalidSuffix, formGa) ∧
    'ㄸ' ∉ FINAL_JAMOS ∧
    formGa.append ['ㄸ'] true = .error (.rangeError, formGaBroken) :=
  ⟨by decide, by decide, by rfl, by rfl, by rfl, by decide, by rfl⟩

/-- C3 (amended): append with merge fails with `InvalidSuffixError` unless
the suffix's first character is drawn from the 19-entry INITIAL consonant
catalog (not the final catalog, as the spec claims); when the append
succeeds, that consonant becomes the final of the current last syllable and
every remaining suffix character is appended as an ordinary composed
syllable. -/
theorem claim_C3_amended :
    (∀ (wf : WordForm) (c : Char) (rest : List Char), c ∉ INITIAL_JAMOS →
      wf.append (c :: rest) true = .error (.invalidSuffix, wf))
  ∧ (∀ (wf : WordForm) (c : Char) (rest : List Char) (wf' : WordForm),
      wf.append (c :: rest) true = .ok wf' →
      c ∈ INITIAL_JAMOS ∧
        ∃ last last1 rsyls, wf.syllables.getLast? = some last ∧
          last.append c = .ok last1 ∧ last1.jamo_final = c ∧
          decodeAll rest = .ok rsyls ∧
          wf'.syllables = (wf.syllables.dropLast ++ [last1]) ++ rsyls ∧
          wf'.string = stringOf wf'.syllables) := by
  constructor
  · intro wf c rest h
    exact WordForm.append_merge_not_initial h
  · intro wf c rest wf' h
    obtain ⟨hc, last, last1, rsyls, hlast, happ, hrest, hsyl, hstr, _⟩ :=
      WordForm.append_merge_ok_struct h
    exact ⟨hc, last, last1, rsyls, hlast, happ, (Syllable.append_ok happ).2.1, hrest,
      hsyl, hstr⟩

/-- C3 amended witness: `ㄳ` (outside the initial catalog) is rejected with
`InvalidSuffixError` on the form of `가`, and the successful merge of `ㅂ`
into `가` attaches `ㅂ` as the final of the last syllable. -/
theorem claim_C3_amended_witness :
    formGa.append ('ㄳ' :: []) true = .error (.invalidSuffix, formGa) ∧
    ('ㅂ' ∈ INITIAL_JAMOS ∧
      ∃ last last1 rsyls, formGa.syllables.getLast? = some last ∧
        last.append 'ㅂ' = .ok last1 ∧ last1.jamo_final = 'ㅂ' ∧
        decodeAll [] = .ok rsyls ∧
        formGab.syllables = (formGa.syllables.dropLast ++ [last1]) ++ rsyls ∧
        formGab.string = stringOf formGab.syllables) :=
  ⟨claim_C3_amended.1 formGa 'ㄳ' [] (by decide),
   claim_C3_amended.2 formGa 'ㅂ' [] formGab (by rfl)⟩

/-- C4 counterexample: a failing append is not atomic.  Appending `ㄸ` with
merge to the form of `가` passes the initial-catalog guard, mutates the last
syllable's final jamo to `ㄸ`, and only then fails inside the codec
(`ㄸ` is not a valid final); the error leaves a form whose syllable list is
mutated (and whose derived surface and jamo strings are stale), different
from the original. -/
theorem claim_C4_counterexample :
    WordForm.mk? "가".toList = .ok formGa ∧
    formGa.append ['ㄸ'] true = .error (.rangeError, formGaBroken) ∧
    formGaBroken ≠ formGa ∧
    formGaBroken.syllables.map (fun y => y.jamo_final) = ['ㄸ'] ∧
    formGa.syllables.map (fun y => y.jamo_final) = [' '] :=
  ⟨by rfl, by rfl, by decide, by rfl, by rfl⟩

/-- C4 (amended): append without merge is atomic (any failure leaves the
form unchanged), and append with merge is atomic when it fails on the
suffix guard (`InvalidSuffixError`) or on the already-set final guard
(`FinalAlreadySetError`) — likewise `Syllable.append`'s guard failure
leaves the syllable unchanged; but a merge append whose leading consonant
is not a valid final jamo (or whose remaining characters fail to decode)
fails only after mutating the last syllable, as the counterexample shows. -/
theorem claim_C4_amended :
    (∀ (wf : WordForm) (suffix : List Char) (e : Err) (wf' : WordForm),
      wf.append suffix false = .error (e, wf') → wf' = wf)
  ∧ (∀ (wf : WordForm) (suffix : List Char) (wf' : WordForm),
      wf.append suffix true = .error (.invalidSuffix, wf') → wf' = wf)
  ∧ (∀ (wf : WordForm) (suffix : List Char) (wf' : WordForm),
      wf.append suffix true = .error (.finalAlreadySet, wf') → wf' = wf)
  ∧ (∀ (y : Syllable) (f : Char) (y' : Syllable),
      y.append f = .error (.finalAlreadySet, y') → y' = y) :=
  ⟨fun _ _ _ _ h => WordForm.append_false_error h,
   fun _ _ _ h => WordForm.append_merge_invalidSuffix h,
   fun _ _ _ h => WordForm.append_merge_finalAlreadySet h,
   fun _ _ _ h => Syllable.append_guard h⟩

/-- C4 amended witness: concrete atomic failures — appending the non-Hangul
character `A` without merge, appending the non-initial `ㄳ` with merge, and
merging onto the already-closed syllable of `갑` all leave the form (or
syllable) unchanged. -/
theorem claim_C4_amended_witness :
    formGa = formGa ∧ formGa = formGa ∧ formGab = formGab ∧
    (⟨'갑', 'ㄱ', 'ㅏ', 'ㅂ'⟩ : Syllable) = ⟨'갑', 'ㄱ', 'ㅏ', 'ㅂ'⟩ :=
  ⟨claim_C4_amended.1 formGa ['A'] .indexError formGa (by rfl),
   claim_C4_amended.2.1 formGa ['ㄳ'] formGa (by rfl),
   claim_C4_amended.2.2.1 formGab ['ㅂ'] formGab (by rfl),
   claim_C4_amended.2.2.2 ⟨'갑', 'ㄱ', 'ㅏ', 'ㅂ'⟩ 'ㅂ' ⟨'갑', 'ㄱ', 'ㅏ', 'ㅂ'⟩ (by rfl)⟩

/-- C7: constructing a `Verb` or `Adjective` succeeds exactly on lemmas
whose last character is the dictionary-ending syllable `다` (among decodable
lemmas), in which case the root is the lemma minus its last character;
otherwise construction fails with `MalformedLemmaError`.  In particular
`Verb("먹다")` has root surface `먹` and `Verb("먹")` fails. -/
theorem claim_C7_predicates :
    (∀ (s : List Char) (w : Word), Verb.mk? s = .ok w →
      s.getLast? = some '다' ∧ w.root.string = s.dropLast ∧ w.lemma_.string = s)
  ∧ (∀ (s : List Char) (w0 : Word), Word.mk? s = .ok w0 → s.getLast? ≠ some '다' →
      Verb.mk? s = .error .malformedLemma)
  ∧ (∀ (s : List Char) (w : Word), Adjective.mk? s = .ok w →
      s.getLast? = some '다' ∧ w.root.string = s.dropLast ∧ w.lemma_.string = s)
  ∧ (∀ (s : List Char) (w0 : Word), Word.mk? s = .ok w0 → s.getLast? ≠ some '다' →
      Adjective.mk? s = .error .malformedLemma)
  ∧ (Verb.mk? "먹다".toList).map (fun w => w.root.string) = .ok "먹".toList
  ∧ Verb.mk? "먹".toList = .error .malformedLemma := by
  refine ⟨?_, fun s w0 h hda => Verb.mk?_malformedV h hda, ?_,
    fun s w0 h hda => Adjective.mk?_malformedA h hda, by rfl, by rfl⟩
  · intro s w h
    obtain ⟨wfL, wfR, hL, hda, hR, rfl⟩ := Verb.mk?_okV h
    exact ⟨hda, (WordForm.mk?_ok hR).2.1, (WordForm.mk?_ok hL).2.1⟩
  · intro s w h
    obtain ⟨wfL, wfR, hL, hda, hR, rfl⟩ := Adjective.mk?_okA h
    exact ⟨hda, (WordForm.mk?_ok hR).2.1, (WordForm.mk?_ok hL).2.1⟩

/-- C7 witness: the general parts instantiated at `먹다` (success) and at
the decodable non-lemma `먹` (failure). -/
theorem claim_C7_predicates_witness :
    ("먹다".toList.getLast? = some '다' ∧
      (⟨⟨"먹다".toList, ['ㅁ','ㅓ','ㄱ','ㄷ','ㅏ'],
          [⟨'먹','ㅁ','ㅓ','ㄱ'⟩, ⟨'다','ㄷ','ㅏ',' '⟩]⟩,
        ⟨"먹".toList, ['ㅁ','ㅓ','ㄱ'], [⟨'먹','ㅁ','ㅓ','ㄱ'⟩]⟩,
        ⟨"먹다".toList, ['ㅁ','ㅓ','ㄱ','ㄷ','ㅏ'],
          [⟨'먹','ㅁ','ㅓ','ㄱ'⟩, ⟨'다','ㄷ','ㅏ',' '⟩]⟩⟩ : Word).root.string =
        "먹다".toList.dropLast ∧
      (⟨⟨"먹다".toList, ['ㅁ','ㅓ','ㄱ','ㄷ','ㅏ'],
          [⟨'먹','ㅁ','ㅓ','ㄱ'⟩, ⟨'다','ㄷ','ㅏ',' '⟩]⟩,
        ⟨"먹".toList, ['ㅁ','ㅓ','ㄱ'], [⟨'먹','ㅁ','ㅓ','ㄱ'⟩]⟩,
        ⟨"먹다".toList, ['ㅁ','ㅓ','ㄱ','ㄷ','ㅏ'],
          [⟨'먹','ㅁ','ㅓ','ㄱ'⟩, ⟨'다','ㄷ','ㅏ',' '⟩]⟩⟩ : Word).lemma_.string =
        "먹다".toList)
  ∧ Verb.mk? "먹".toList = .error .malformedLemma :=
  ⟨claim_C7_predicates.1 "먹다".toList _ (by rfl),
   claim_C7_predicates.2.1 "먹".toList
     ⟨⟨"먹".toList, ['ㅁ','ㅓ','ㄱ'], [⟨'먹','ㅁ','ㅓ','ㄱ'⟩]⟩,
      ⟨"먹".toList, ['ㅁ','ㅓ','ㄱ'], [⟨'먹','ㅁ','ㅓ','ㄱ'⟩]⟩,
      ⟨"먹".toList, ['ㅁ','ㅓ','ㄱ'], [⟨'먹','ㅁ','ㅓ','ㄱ'⟩]⟩⟩ (by rfl) (by decide)⟩

/-- C8: contrary to the claim, past-tense construction does NOT fail
explicitly for stems outside the vowel-harmony table.  For the "do"
auxiliary stem `하`, `PastTense._build_base_inflection` silently does
nothing — it returns with no error and the inflection still equal to the
untouched dictionary form `하다` (no past-tense ending is ever appended);
for an `ㅗ`-stem such as `오다` it fails, but only accidentally, with the
`NameError` of the undefined loop variable `i`. -/
theorem claim_C8_pasttense_silent :
    ((Verb.mk? "하다".toList).bind PastTense.mk? |>.bind
        PastTense.build_base_inflection |>.map (fun w => w.inflection.string))
      = .ok "하다".toList
  ∧ ((Verb.mk? "오다".toList).bind PastTense.mk? |>.bind
        PastTense.build_base_inflection)
      = .error .nameError :=
  ⟨by rfl, by rfl⟩

/-- C10: the flat jamo string of a `WordForm` is `buildJamos` of its
syllables (an invariant of construction and of successful appends); the last
character of `buildJamos` is the last syllable's final jamo when that final
is non-sentinel and its medial jamo otherwise; consequently testing whether
the flat jamo string ends with a single sound unit coincides with
`Syllable.endswith` applied to the last syllable. -/
theorem claim_C10_flat_classifier :
    (∀ (s : List Char) (wf : WordForm), WordForm.mk? s = .ok wf →
      wf.jamos = buildJamos wf.syllables)
  ∧ (∀ (wf : WordForm) (suffix : List Char) (merge : Bool) (wf' : WordForm),
      wf.append suffix merge = .ok wf' → wf'.jamos = buildJamos wf'.syllables)
  ∧ (∀ (syls : List Syllable) (y : Syllable), syls.getLast? = some y →
      (buildJamos syls).getLast? =
        some (if y.jamo_final ≠ JAMO_NONE then y.jamo_final else y.jamo_medial))
  ∧ (∀ (syls : List Syllable) (y : Syllable), syls.getLast? = some y →
      ∀ u : Char, endsWithChar (buildJamos syls) u = y.endswith u) := by
  refine ⟨fun s wf h => (WordForm.mk?_ok h).2.2, ?_,
    fun _ _ h => buildJamos_getLast? h, fun _ _ h u => endsWithChar_buildJamos h u⟩
  intro wf suffix merge wf' h
  cases merge with
  | true =>
    match suffix with
    | [] => simp [WordForm.append] at h
    | c :: rest => exact (WordForm.append_merge_ok_struct h).2.choose_spec.choose_spec.choose_spec.2.2.2.2.2
  | false =>
    simp only [WordForm.append] at h
    split at h
    · cases h
    · cases h
      rfl

/-- C10 witness: the classifier equivalence at the concrete form of `갑`
(final `ㅂ`) and the unit `ㅂ`, plus the invariant at `가` and at the merge
append producing `갑`. -/
theorem claim_C10_flat_classifier_witness :
    formGa.jamos = buildJamos formGa.syllables ∧
    formGab.jamos = buildJamos formGab.syllables ∧
    (buildJamos formGab.syllables).getLast? =
      some (if (⟨'갑','ㄱ','ㅏ','ㅂ'⟩ : Syllable).jamo_final ≠ JAMO_NONE
        then (⟨'갑','ㄱ','ㅏ','ㅂ'⟩ : Syllable).jamo_final
        else (⟨'갑','ㄱ','ㅏ','ㅂ'⟩ : Syllable).jamo_medial) ∧
    endsWithChar (buildJamos formGab.syllables) 'ㅂ' =
      Syllable.endswith ⟨'갑','ㄱ','ㅏ','ㅂ'⟩ 'ㅂ' :=
  ⟨claim_C10_flat_classifier.1 "가".toList formGa (by rfl),
   claim_C10_flat_classifier.2.1 formGa ['ㅂ'] true formGab (by rfl),
   claim_C10_flat_classifier.2.2.1 formGab.syllables ⟨'갑','ㄱ','ㅏ','ㅂ'⟩ (by rfl),
   claim_C10_flat_classifier.2.2.2 formGab.syllables ⟨'갑','ㄱ','ㅏ','ㅂ'⟩ (by rfl) 'ㅂ'⟩

/-- The decoded form of `저` and the corresponding plain noun `Word`. -/
def formJeo : WordForm := ⟨"저".toList, ['ㅈ', 'ㅓ'], [⟨'저', 'ㅈ', 'ㅓ', ' '⟩]⟩

/-- The plain noun `Word` built from `저`. -/
def wordJeo : Word := ⟨formJeo, formJeo, formJeo⟩

/-- The decoded form of `먹다`. -/
def formMeokda : WordForm :=
  ⟨"먹다".toList, ['ㅁ','ㅓ','ㄱ','ㄷ','ㅏ'], [⟨'먹','ㅁ','ㅓ','ㄱ'⟩, ⟨'다','ㄷ','ㅏ',' '⟩]⟩

/-- The decoded form of the stem `먹`. -/
def formMeok : WordForm := ⟨"먹".toList, ['ㅁ','ㅓ','ㄱ'], [⟨'먹','ㅁ','ㅓ','ㄱ'⟩]⟩

/-- The `Word` produced by `Verb("먹다")`. -/
def wordMeokda : Word := ⟨formMeokda, formMeok, formMeokda⟩

/-- C5: particle marking selects the allomorph by the phonological class of
the noun root's trailing sound unit — `는`/`은` for Topic, `가`/`이` for
Subject, `를`/`을` for Object, vowel-final picking the first of each pair —
and the four concrete spec examples hold: `저가`, `책이`, `사람은`,
`의자는`. -/
theorem claim_C5_particle_selection :
    (∀ (s : List Char) (w : Word), Word.mk? s = .ok w →
      (∃ t, Topic.mk? w = .ok t ∧
        t.inflection.string =
          s ++ [if endsWithAny w.root.jamos hangul_vowels then '는' else '은'])
      ∧ (∃ t, Subject.mk? w = .ok t ∧
        t.inflection.string =
          s ++ [if endsWithAny w.root.jamos hangul_vowels then '가' else '이'])
      ∧ (∃ t, Object.mk? w = .ok t ∧
        t.inflection.string =
          s ++ [if endsWithAny w.root.jamos hangul_vowels then '를' else '을']))
  ∧ ((Word.mk? "저".toList).bind Subject.mk? |>.map (fun t => t.inflection.string))
      = .ok "저가".toList
  ∧ ((Word.mk? "책".toList).bind Subject.mk? |>.map (fun t => t.inflection.string))
      = .ok "책이".toList
  ∧ ((Word.mk? "사람".toList).bind Topic.mk? |>.map (fun t => t.inflection.string))
      = .ok "사람은".toList
  ∧ ((Word.mk? "의자".toList).bind Topic.mk? |>.map (fun t => t.inflection.string))
      = .ok "의자는".toList := by
  refine ⟨?_, by rfl, by rfl, by rfl, by rfl⟩
  intro s w h
  exact ⟨Topic.mk?_eqT h (by rfl) (by rfl), Subject.mk?_eqS h (by rfl) (by rfl),
    Object.mk?_eqO h (by rfl) (by rfl)⟩

/-- C5 witness: the general allomorph rule instantiated at the concrete
noun `저`. -/
theorem claim_C5_particle_selection_witness :
    (∃ t, Topic.mk? wordJeo = .ok t ∧
      t.inflection.string =
        "저".toList ++ [if endsWithAny wordJeo.root.jamos hangul_vowels then '는' else '은'])
    ∧ (∃ t, Subject.mk? wordJeo = .ok t ∧
      t.inflection.string =
        "저".toList ++ [if endsWithAny wordJeo.root.jamos hangul_vowels then '가' else '이'])
    ∧ (∃ t, Object.mk? wordJeo = .ok t ∧
      t.inflection.string =
        "저".toList ++ [if endsWithAny wordJeo.root.jamos hangul_vowels then '를' else '을']) :=
  claim_C5_particle_selection.1 "저".toList wordJeo (by rfl)

/-- C6: `PresentPolite` resets the inflection to a copy of the root and then
appends `습니다` without merge when the root is consonant-final, and appends
`ㅂ니다` with merge when it is vowel-final (the merge succeeding); in
particular `PresentPolite(Verb("먹다"))` surfaces `먹습니다` and
`PresentPolite(Verb("가다"))` surfaces `갑니다`. -/
theorem claim_C6_present_polite :
    (∀ (s : List Char) (v : Word), Verb.mk? s = .ok v →
      (endsWithAny v.root.jamos hangul_vowels = false →
        ∃ p, PresentPolite.mk? v = .ok p ∧
          p.inflection.string = v.root.string ++ ('습' :: '니' :: ['다']))
      ∧ (endsWithAny v.root.jamos hangul_vowels = true →
        ∃ infl, v.root.append ('ㅂ' :: '니' :: ['다']) true = .ok infl ∧
          PresentPolite.mk? v = .ok { v with inflection := infl }))
  ∧ ((Verb.mk? "먹다".toList).bind PresentPolite.mk? |>.map (fun p => p.inflection.string))
      = .ok "먹습니다".toList
  ∧ ((Verb.mk? "가다".toList).bind PresentPolite.mk? |>.map (fun p => p.inflection.string))
      = .ok "갑니다".toList :=
  ⟨fun _ _ h => presentPolite_branches h, by rfl, by rfl⟩

/-- C6 witness: the consonant branch instantiated at `Verb("먹다")`, whose
root `먹` is consonant-final. -/
theorem claim_C6_present_polite_witness :
    ∃ p, PresentPolite.mk? wordMeokda = .ok p ∧
      p.inflection.string = wordMeokda.root.string ++ ('습' :: '니' :: ['다']) :=
  (claim_C6_present_polite.1 "먹다".toList wordMeokda (by rfl)).1 (by rfl)

/-! ### A store model of object identity

Python `Word` objects hold references to mutable `WordForm` objects, and the
isolation property of `Word.copy` is about aliasing: each call to
`WordForm(...)` or `WordForm.copy` allocates a fresh object.  The store is a
list of `WordForm`s, a reference is an index, and `WordForm.append` mutates
the store in place at the given reference. -/

/-- A heap of `WordForm` objects. -/
abbrev Store : Type := List WordForm

/-- A `Word` as Python sees it: three references into the store. -/
structure WordRef where
  lemma_ : Nat
  root : Nat
  inflection : Nat
deriving DecidableEq

/-- Allocate a fresh `WordForm`, returning its reference. -/
def alloc (st : Store) (wf : WordForm) : Nat × Store := (st.length, st ++ [wf])

/-- Dereference. -/
def readRef (st : Store) (r : Nat) : Option WordForm := st.get? r

/-- `Word.__init__` in the store model: three separate `WordForm(lemma)`
constructions, each a fresh allocation. -/
def wordNew (s : List Char) (st : Store) : Except Err (WordRef × Store) :=
  match WordForm.mk? s with
  | .error e => .error e
  | .ok wf =>
    let (l, st1) := alloc st wf
    let (r, st2) := alloc st1 wf
    let (i, st3) := alloc st2 wf
    .ok (⟨l, r, i⟩, st3)

/-- `Word.copy` in the store model: `Word(self.lemma.string)` followed by
`word.root = self.root.copy()` and `word.inflection = self.inflection.copy()`,
each copy being a fresh allocation rebuilt from the source's surface
string. -/
def wordCopyRef (w : WordRef) (st : Store) : Except Err (WordRef × Store) :=
  match readRef st w.lemma_ with
  | none => .error .indexError
  | some lwf =>
    match wordNew lwf.string st with
    | .error e => .error e
    | .ok (w1, st1) =>
      match readRef st1 w.root with
      | none => .error .indexError
      | some rwf =>
        match WordForm.mk? rwf.string with
        | .error e => .error e
        | .ok rc =>
          let (r2, st2) := alloc st1 rc
          match readRef st2 w.inflection with
          | none => .error .indexError
          | some iwf =>
            match WordForm.mk? iwf.string with
            | .error e => .error e
            | .ok ic =>
              let (i2, st3) := alloc st2 ic
              .ok (⟨w1.lemma_, r2, i2⟩, st3)

/-- In-place `WordForm.append` through a reference: the object at `r` is
replaced by the resulting form — also on failure, where the partially
mutated form is stored (matching the in-place mutation of the source). -/
def appendRef (st : Store) (r : Nat) (suffix : List Char) (merge : Bool) :
    Except (Err × Store) Store :=
  match readRef st r with
  | none => .error (.indexError, st)
  | some wf =>
    match wf.append suffix merge with
    | .ok wf1 => .ok (st.set r wf1)
    | .error (e, wf1) => .error (e, st.set r wf1)

/-- The store an `appendRef` call leaves behind, whether it succeeds or
raises. -/
def appendRefState (st : Store) (r : Nat) (suffix : List Char) (merge : Bool) : Store :=
  match appendRef st r suffix merge with
  | .ok st1 => st1
  | .error (_, st1) => st1

/-- The `WordForm` of the single syllable 책, used in the concrete C9 store. -/
def c9wf : WordForm :=
  match WordForm.mk? ['책'] with
  | .ok wf => wf
  | .error _ => ⟨[], [], []⟩

/-- Concrete store: the three forms of `Word("책")`. -/
def c9st : Store := [c9wf, c9wf, c9wf]

/-- Reference to the original word in `c9st`. -/
def c9w : WordRef := ⟨0, 1, 2⟩

/-- Reference produced for the copy of `c9w`. -/
def c9c : WordRef := ⟨3, 6, 7⟩

/-- The store after copying `c9w` in `c9st`. -/
def c9st1 : Store :=
  match wordCopyRef c9w c9st with
  | .ok (_, st) => st
  | .error _ => []

theorem readRef_append_left {st ext : Store} {k : Nat} (hk : k < st.length) :
    readRef (st ++ ext) k = readRef st k := by
  unfold readRef
  exact List.get?_append hk

theorem readRef_set_ne {st : Store} {r k : Nat} {x : WordForm} (h : r ≠ k) :
    readRef (st.set r x) k = readRef st k := by
  unfold readRef
  exact List.get?_set_ne x st h

theorem appendRefState_frame {st0 st : Store} (ext : List WordForm) {r k : Nat}
    (hst : st = st0 ++ ext) (hr : st0.length ≤ r) (hk : k < st0.length)
    (suffix : List Char) (merge : Bool) :
    readRef (appendRefState st r suffix merge) k = readRef st0 k := by
  have hread : readRef st k = readRef st0 k := by
    rw [hst]
    exact readRef_append_left hk
  have hne : r ≠ k := by omega
  unfold appendRefState appendRef
  cases hrd : readRef st r with
  | none => simp only [hrd]; exact hread
  | some wf =>
    simp only [hrd]
    cases happ : wf.append suffix merge with
    | ok wf1 =>
      simp only [happ]
      rw [readRef_set_ne hne]
      exact hread
    | error p =>
      obtain ⟨e, wf1⟩ := p
      simp only [happ]
      rw [readRef_set_ne hne]
      exact hread

theorem alloc_eq (st : Store) (wf : WordForm) :
    alloc st wf = (st.length, st ++ [wf]) := rfl

theorem wordNew_shape {s : List Char} {st : Store} {w : WordRef} {st1 : Store}
    (h : wordNew s st = .ok (w, st1)) :
    ∃ wf, WordForm.mk? s = .ok wf ∧ st1 = st ++ [wf, wf, wf] ∧
      w = ⟨st.length, st.length + 1, st.length + 2⟩ := by
  unfold wordNew at h
  split at h
  · cases h
  · next wf hwf =>
    simp only [alloc_eq] at h
    cases h
    refine ⟨wf, hwf, by simp, by simp [List.length_append]⟩

theorem wordCopyRef_shape {w : WordRef} {st : Store} {c : WordRef} {st1 : Store}
    (h : wordCopyRef w st = .ok (c, st1)) :
    ∃ ext : List WordForm, st1 = st ++ ext ∧
      c.lemma_ = st.length ∧ c.root = st.length + 3 ∧ c.inflection = st.length + 4 := by
  unfold wordCopyRef at h
  split at h
  · cases h
  · next lwf hlwf =>
    split at h
    · cases h
    · next w1 stA hnew =>
      obtain ⟨wf, hwf, rfl, rfl⟩ := wordNew_shape hnew
      split at h
      · cases h
      · next rwf hrwf =>
        split at h
        · cases h
        · next rc hrc =>
          simp only [alloc_eq] at h
          split at h
          · cases h
          · next iwf hiwf =>
            split at h
            · cases h
            · next ic hic =>
              cases h
              refine ⟨[wf, wf, wf] ++ [rc] ++ [ic], by simp, rfl, ?_, ?_⟩
              · show (st ++ [wf, wf, wf]).length = st.length + 3
                simp
              · show ((st ++ [wf, wf, wf]) ++ [rc]).length = st.length + 4
                simp

/-- C9: copying a `Word` yields a fully independent value.  In the store
model, after `wordCopyRef` succeeds, appending anything (with or without
merge, succeeding or failing) to the copy's inflection — or to the
inflection of any `Word` freshly built afterwards, as particle marking and
conjugation do — leaves the original word's lemma, root and inflection
objects unchanged. -/
theorem claim_C9_copy_isolation :
    ∀ (st : Store) (w c : WordRef) (st1 : Store),
      w.lemma_ < st.length → w.root < st.length → w.inflection < st.length →
      wordCopyRef w st = .ok (c, st1) →
      (∀ (suffix : List Char) (merge : Bool),
        readRef (appendRefState st1 c.inflection suffix merge) w.lemma_ =
          readRef st w.lemma_ ∧
        readRef (appendRefState st1 c.inflection suffix merge) w.root =
          readRef st w.root ∧
        readRef (appendRefState st1 c.inflection suffix merge) w.inflection =
          readRef st w.inflection)
      ∧ (∀ (s2 : List Char) (c2 : WordRef) (st2 : Store),
          wordNew s2 st1 = .ok (c2, st2) →
          ∀ (suffix : List Char) (merge : Bool),
            readRef (appendRefState st2 c2.inflection suffix merge) w.lemma_ =
              readRef st w.lemma_ ∧
            readRef (appendRefState st2 c2.inflection suffix merge) w.root =
              readRef st w.root ∧
            readRef (appendRefState st2 c2.inflection suffix merge) w.inflection =
              readRef st w.inflection) := by
  intro st w c st1 hl hr hi hcopy
  obtain ⟨ext, rfl, hcl, hcr, hci⟩ := wordCopyRef_shape hcopy
  constructor
  · intro suffix merge
    refine ⟨?_, ?_, ?_⟩
    · exact appendRefState_frame ext rfl (by omega) hl suffix merge
    · exact appendRefState_frame ext rfl (by omega) hr suffix merge
    · exact appendRefState_frame ext rfl (by omega) hi suffix merge
  · intro s2 c2 st2 hnew suffix merge
    obtain ⟨wf2, hwf2, rfl, hc2⟩ := wordNew_shape hnew
    have hinf : c2.inflection = st.length + ext.length + 2 := by
      rw [hc2]
      simp [List.length_append]
    refine ⟨?_, ?_, ?_⟩
    · exact appendRefState_frame (ext ++ [wf2, wf2, wf2])
        (by rw [List.append_assoc]) (by omega) hl suffix merge
    · exact appendRefState_frame (ext ++ [wf2, wf2, wf2])
        (by rw [List.append_assoc]) (by omega) hr suffix merge
    · exact appendRefState_frame (ext ++ [wf2, wf2, wf2])
        (by rw [List.append_assoc]) (by omega) hi suffix merge

/-- Witness for C9: in the concrete store built from `Word("책")`, copying and
then appending 이 to the copy's inflection leaves the original inflection
unchanged. -/
theorem claim_C9_copy_isolation_witness :
    (c9w.lemma_ < c9st.length ∧ c9w.root < c9st.length ∧ c9w.inflection < c9st.length ∧
      wordCopyRef c9w c9st = Except.ok (c9c, c9st1)) ∧
    readRef (appendRefState c9st1 c9c.inflection ['이'] false) c9w.inflection =
      readRef c9st c9w.inflection := by
  have hcopy : wordCopyRef c9w c9st = Except.ok (c9c, c9st1) := by rfl
  refine ⟨⟨by decide, by decide, by decide, hcopy⟩, ?_⟩
  exact ((claim_C9_copy_isolation c9st c9w c9c c9st1 (by decide) (by decide) (by decide)
    hcopy).1 ['이'] false).2.2

end StudyKorean
